import Mathlib

/-!
Verification of the Manta collator-selection pallet
(src/pallets/collator-selection/src/lib.rs).

The development shallowly embeds the pallet: storage is a `State` record,
dispatchables are functions `State → Except Error Unit × State` (a failing
call returns the unchanged input state, matching the transactional
extrinsic semantics: every `ensure!` fires before any mutation, and
`try_mutate` discards the mutation on error), and the session hooks are
total state transformers.  Machine arithmetic is `Nat`/`Int` with explicit
saturation; the `f64` percentile computation of `kick_stale_candidates` is
modelled bit-faithfully by an executable binary64 rounding function over
dyadic rationals.
-/

/-! ### An executable model of IEEE-754 binary64 arithmetic

`kick_stale_candidates` computes its rank and threshold with `f64`
(`(P as f64) / 100.0 * N as f64`, `1.0 - U as f64 / 100.0`, ...).  All
values that arise are dyadic rationals well inside the normal range, so a
float is represented exactly by a pair `(n : ℤ, d : ℕ)` meaning `n / d`
with `d` a power of two, and each operation rounds the exact rational
result to 53 significand bits, ties to even. -/

set_option maxRecDepth 100000

def TWO52 : Int := 4503599627370496

def TWO53 : Int := 9007199254740992

/-- Scale a positive rational `n / d` up by powers of two (tracking the
exponent `e`) until it is at least `2^52`. -/
def scUp : Nat → Int → Nat → Int → Int × Nat × Int
  | 0, n, d, e => (n, d, e)
  | f + 1, n, d, e =>
    if n < TWO52 * (d : Int) then scUp f (2 * n) d (e - 1) else (n, d, e)

/-- Scale a positive rational `n / d` down by powers of two (tracking the
exponent `e`) until it is below `2^53`. -/
def scDown : Nat → Int → Nat → Int → Int × Nat × Int
  | 0, n, d, e => (n, d, e)
  | f + 1, n, d, e =>
    if TWO53 * (d : Int) ≤ n then scDown f n (2 * d) (e + 1) else (n, d, e)

/-- Round the nonnegative rational `n / d` to the nearest integer, ties to
even. -/
def rndHalfEven (n : Int) (d : Nat) : Int :=
  let q := Int.ediv n d
  let r := Int.emod n d
  if 2 * r < (d : Int) then q
  else if (d : Int) < 2 * r then q + 1
  else if q % 2 = 0 then q else q + 1

/-- Reassemble a rounded significand `m` and binary exponent `e` into a
rational pair. -/
def dyVal (m : Int) (e : Int) : Int × Nat :=
  if 0 ≤ e then (m * (2 : Int) ^ e.toNat, 1) else (m, 2 ^ (-e).toNat)

/-- Round a positive rational `n / d` to binary64: normalise the
significand into `[2^52, 2^53)` and round to nearest, ties to even. -/
def f64roundPos (n : Int) (d : Nat) : Int × Nat :=
  let u := scUp 1100 n d 0
  let v := scDown 1100 u.1 u.2.1 u.2.2
  dyVal (rndHalfEven v.1 v.2.1) v.2.2

/-- Round a rational pair to binary64 (rounding is sign-symmetric). -/
def f64round (p : Int × Nat) : Int × Nat :=
  if p.1 = 0 then (0, 1)
  else if 0 < p.1 then f64roundPos p.1 p.2
  else
    let r := f64roundPos (-p.1) p.2
    (-r.1, r.2)

/-- Binary64 multiplication: round the exact product. -/
def fMul (a b : Int × Nat) : Int × Nat :=
  f64round (a.1 * b.1, a.2 * b.2)

/-- Binary64 division by a float with positive value: round the exact
quotient. -/
def fDivPos (a b : Int × Nat) : Int × Nat :=
  f64round (a.1 * (b.2 : Int), a.2 * b.1.toNat)

/-- Binary64 subtraction: round the exact difference. -/
def fSub (a b : Int × Nat) : Int × Nat :=
  f64round (a.1 * (b.2 : Int) - b.1 * (a.2 : Int), a.2 * b.2)

/-- The binary64 value of a natural number (`as f64` on an integer). -/
def fOfNat (k : Nat) : Int × Nat :=
  f64round ((k : Int), 1)

/-- Rust `as`-cast of a float to an unsigned integer type: truncate toward
zero, saturating below at zero. -/
def fTruncToNat (p : Int × Nat) : Nat :=
  (Int.ediv p.1 p.2).toNat

/-- The rank index computed by `kick_stale_candidates` step 2:
`(((P as f64) / 100.0 * N as f64) as usize).saturating_sub(1)`
(`Nat` subtraction is saturating). -/
def ordinalRank (P N : Nat) : Nat :=
  fTruncToNat (fMul (fDivPos (fOfNat P) (fOfNat 100)) (fOfNat N)) - 1

/-- The kick threshold computed by `kick_stale_candidates` step 4:
`((1.0 - U as f64 / 100.0) * blocks as f64) as BlockCount` where
`BlockCount = u32` (the cast saturates at `2^32 - 1`). -/
def kickThresholdF (U blocks : Nat) : Nat :=
  min (fTruncToNat (fMul (fSub (fOfNat 1) (fDivPos (fOfNat U) (fOfNat 100))) (fOfNat blocks)))
    (2 ^ 32 - 1)

/-- The rank index as the specification states it, over exact integers:
`floor(P / 100 * N) − 1` with saturating subtraction. -/
def rankSpec (P N : Nat) : Nat :=
  P * N / 100 - 1

/-- The kick threshold as the specification states it, over exact
integers: `floor((1 − U / 100) * blocks)` for `U ≤ 100`. -/
def kickThresholdSpec (U blocks : Nat) : Nat :=
  (100 - U) * blocks / 100

/-! ### Data model

Storage of the pallet (`Invulnerables`, `Candidates`,
`BlocksPerCollatorThisSession`, `DesiredCandidates`, `CandidacyBond`)
together with the balances of the external currency (free and reserved per
account) and the emitted events.  `AccountId` is an arbitrary type `A`
with decidable equality; `Balance` and `BlockCount` are `Nat` (the
`BlockCount = u32` saturation bound is applied where the source saturates).
-/

/-- Basic information about a collation candidate (`CandidateInfo`). -/
structure CandidateInfo (A : Type) where
  who : A
  deposit : Nat
deriving DecidableEq

/-- The pallet error enum, extended with the balance error surfaced by
`Currency::reserve`. -/
inductive PalletError where
  | TooManyCandidates
  | Unknown
  | Permission
  | AlreadyCandidate
  | NotCandidate
  | AlreadyInvulnerable
  | NoAssociatedValidatorId
  | ValidatorNotRegistered
  | NotAllowRemoveInvulnerable
  | BalanceTooLow
deriving DecidableEq

/-- The pallet event enum. -/
inductive PalletEvent (A : Type) where
  | NewInvulnerables (new : List A)
  | NewDesiredCandidates (max : Nat)
  | NewCandidacyBond (bond : Nat)
  | CandidateAdded (who : A) (deposit : Nat)
  | CandidateRemoved (who : A)
deriving DecidableEq

/-- The `Config` constants of the pallet: the pot account (derived once
from `PotId`), the benchmarking maxima, the two kick percentages, the
currency's existential minimum, and the external validator-identity
collaborators (`ValidatorIdOf`, `ValidatorRegistration`). -/
structure Config (A : Type) where
  potId : A
  maxCandidates : Nat
  maxInvulnerables : Nat
  percentileToConsider : Nat
  underperformPercent : Nat
  minimumBalance : Nat
  validatorIdOf : A → Option A
  isRegistered : A → Bool
  validators : List A

/-- The mutable state: pallet storage, currency balances, emitted events. -/
structure State (A : Type) where
  invulnerables : List A
  candidates : List (CandidateInfo A)
  blocksPerCollator : List (A × Nat)
  desiredCandidates : Nat
  candidacyBond : Nat
  free : A → Nat
  reserved : A → Nat
  events : List (PalletEvent A)

section Ops

variable {A : Type} [DecidableEq A]

/-- Pointwise function update for balance maps. -/
def updFn (f : A → Nat) (a : A) (v : Nat) : A → Nat :=
  fun x => if x = a then v else f x

/-- `StorageMap` point lookup with the `ValueQuery` default `0`
(`StartingBlockCount`). -/
def lookupCount (m : List (A × Nat)) (a : A) : Nat :=
  ((m.find? fun p => decide (p.1 = a)).map Prod.snd).getD 0

/-- `StorageMap::remove`: drop the key. -/
def removeKey (m : List (A × Nat)) (a : A) : List (A × Nat) :=
  m.filter fun p => decide (p.1 ≠ a)

/-- `StorageMap::insert`: replace the value at the key. -/
def insertCount (m : List (A × Nat)) (a : A) (v : Nat) : List (A × Nat) :=
  removeKey m a ++ [(a, v)]

/-- The accounts of the current candidates. -/
def candWhos (s : State A) : List A :=
  s.candidates.map CandidateInfo.who

variable (cfg : Config A)

/-- Modelled from the spec: the Bond Ledger (the `ReservableCurrency`
collaborator) is outside this repository.  Spec 4.1: registration
"reserves the current bond from the account's balance (fails with a
balance error if insufficient)". -/
def reserveC (who : A) (amt : Nat) (s : State A) : Except PalletError (State A) :=
  if amt ≤ s.free who then
    .ok { s with free := updFn s.free who (s.free who - amt),
                 reserved := updFn s.reserved who (s.reserved who + amt) }
  else .error .BalanceTooLow

/-- Modelled from the spec: the Bond Ledger "releases the bond" on
removal; unreserving moves back at most the currently reserved amount and
never fails. -/
def unreserveC (who : A) (amt : Nat) (s : State A) : State A :=
  let a := min amt (s.reserved who)
  { s with reserved := updFn s.reserved who (s.reserved who - a),
           free := updFn s.free who (s.free who + a) }

/-- Modelled from the spec: currency transfer (spec 4.5 step 2), with
`KeepAlive` "requiring the pot to retain at least its existential minimum
afterward"; a zero-value transfer is a successful no-op. -/
def transferKeepAlive (src dst : A) (amt : Nat) (s : State A) :
    Except PalletError (State A) :=
  if amt = 0 then .ok s
  else if amt ≤ s.free src ∧ cfg.minimumBalance ≤ s.free src - amt then
    let f1 := updFn s.free src (s.free src - amt)
    .ok { s with free := updFn f1 dst (f1 dst + amt) }
  else .error .BalanceTooLow

/-- `set_invulnerables`: overwrite the invulnerable list and emit the
event (exceeding `MaxInvulnerables` only logs a warning). -/
def set_invulnerables (new : List A) (s : State A) :
    Except PalletError Unit × State A :=
  (.ok (), { s with invulnerables := new,
                    events := s.events ++ [PalletEvent.NewInvulnerables new] })

/-- `set_desired_candidates`: overwrite the target and emit the event
(exceeding `MaxCandidates` only logs a warning). -/
def set_desired_candidates (max : Nat) (s : State A) :
    Except PalletError Unit × State A :=
  (.ok (), { s with desiredCandidates := max,
                    events := s.events ++ [PalletEvent.NewDesiredCandidates max] })

/-- `set_candidacy_bond`: overwrite the bond and emit the event. -/
def set_candidacy_bond (bond : Nat) (s : State A) :
    Except PalletError Unit × State A :=
  (.ok (), { s with candidacyBond := bond,
                    events := s.events ++ [PalletEvent.NewCandidacyBond bond] })

/-- The common body of `register_as_candidate` and `register_candidate`
(the two dispatchables repeat it verbatim after their origin checks):
capacity check, invulnerable check, validator-identity resolution and
registration check, duplicate check inside `try_mutate`, reserve of the
current bond, append, event. -/
def registerCore (who : A) (s : State A) : Except PalletError (State A) :=
  if s.candidates.length < s.desiredCandidates then
    if who ∈ s.invulnerables then .error .AlreadyInvulnerable
    else
      match cfg.validatorIdOf who with
      | none => .error .NoAssociatedValidatorId
      | some key =>
        if cfg.isRegistered key then
          if s.candidates.any fun c => decide (c.who = who) then
            .error .AlreadyCandidate
          else
            match reserveC who s.candidacyBond s with
            | .error e => .error e
            | .ok s1 =>
              .ok { s1 with
                      candidates := s1.candidates ++ [⟨who, s.candidacyBond⟩],
                      events :=
                        s1.events ++ [PalletEvent.CandidateAdded who s.candidacyBond] }
        else .error .ValidatorNotRegistered
  else .error .TooManyCandidates

/-- `register_as_candidate` (self-registration; a failing call leaves the
state unchanged). -/
def register_as_candidate (who : A) (s : State A) :
    Except PalletError Unit × State A :=
  match registerCore cfg who s with
  | .ok s' => (.ok (), s')
  | .error e => (.error e, s)

/-- `register_candidate` (privileged registration of an arbitrary
account; the body repeats `register_as_candidate` after the origin
check). -/
def register_candidate (newCandidate : A) (s : State A) :
    Except PalletError Unit × State A :=
  match registerCore cfg newCandidate s with
  | .ok s' => (.ok (), s')
  | .error e => (.error e, s)

/-- `try_remove_candidate`: find the candidate (first position with the
account, else `NotCandidate`), unreserve its recorded deposit, remove the
entry, clear its performance counter, emit `CandidateRemoved`. -/
def try_remove_candidate (who : A) (s : State A) : Except PalletError (State A) :=
  match s.candidates.find? fun c => decide (c.who = who) with
  | none => .error .NotCandidate
  | some c =>
    let s1 := unreserveC who c.deposit s
    .ok { s1 with
            candidates := s1.candidates.eraseP fun c2 => decide (c2.who = who),
            blocksPerCollator := removeKey s1.blocksPerCollator who,
            events := s1.events ++ [PalletEvent.CandidateRemoved who] }

/-- `leave_intent`: self-service removal. -/
def leave_intent (who : A) (s : State A) : Except PalletError Unit × State A :=
  match try_remove_candidate who s with
  | .ok s' => (.ok (), s')
  | .error e => (.error e, s)

/-- `remove_collator`: privileged removal, refused on invulnerables. -/
def remove_collator (collator : A) (s : State A) :
    Except PalletError Unit × State A :=
  if collator ∈ s.invulnerables then (.error .NotAllowRemoveInvulnerable, s)
  else
    match try_remove_candidate collator s with
    | .ok s' => (.ok (), s')
    | .error e => (.error e, s)

/-- `assemble_collators`: the invulnerables followed by the given
candidate accounts. -/
def assemble_collators (candidates : List A) (s : State A) : List A :=
  s.invulnerables ++ candidates

/-- `note_author`: reward the block author with
`(free_balance(pot).checked_sub(minimum_balance).unwrap_or(0)).div(2)`
(the transfer result is ignored apart from a debug assertion), then bump
the author's per-session block counter with `u32` saturating addition. -/
def note_author (author : A) (s : State A) : State A :=
  let pot := cfg.potId
  let reward := (s.free pot - cfg.minimumBalance) / 2
  let s1 := match transferKeepAlive cfg pot author reward s with
            | .ok t => t
            | .error _ => s
  let authored := lookupCount s1.blocksPerCollator author
  { s1 with blocksPerCollator :=
      insertCount s1.blocksPerCollator author (min (authored + 1) (2 ^ 32 - 1)) }

/-- `reset_collator_performance`: clear the per-session counters. -/
def reset_collator_performance (s : State A) : State A :=
  { s with blocksPerCollator := [] }

/-- `start_session`: reset collator block counts. -/
def start_session (s : State A) : State A :=
  reset_collator_performance s

/-- The snapshot of `BlocksPerCollatorThisSession` sorted ascending by
block count (`sort_unstable_by_key(|k| k.1)` on the `(account, count)`
pairs). -/
def sortedPerf (s : State A) : List (A × Nat) :=
  List.insertionSort (fun p q => p.2 ≤ q.2) s.blocksPerCollator

/-- The ordinal rank used by `kick_stale_candidates` (step 2). -/
def kickRank (s : State A) : Nat :=
  ordinalRank cfg.percentileToConsider (sortedPerf s).length

/-- `blocks_created_at_percentile` (step 3): the count at the rank index
of the sorted snapshot. -/
def blocksAtPercentile (s : State A) : Nat :=
  ((sortedPerf s).getD (kickRank cfg s) (cfg.potId, 0)).2

/-- `kick_threshold` (step 4). -/
def kickThresholdOf (s : State A) : Nat :=
  kickThresholdF cfg.underperformPercent (blocksAtPercentile cfg s)

/-- The per-account eviction loop of `kick_stale_candidates` (step 5):
re-read the account's counter, compare against the threshold, skip
invulnerables, attempt `try_remove_candidate`, record the account on
success and continue on failure. -/
def kickLoop (kt : Nat) : List A → State A → List A → List A × State A
  | [], s, acc => (acc, s)
  | a :: rest, s, acc =>
    if lookupCount s.blocksPerCollator a ≤ kt then
      if a ∈ s.invulnerables then kickLoop kt rest s acc
      else
        match try_remove_candidate a s with
        | .ok s' => kickLoop kt rest s' (acc ++ [a])
        | .error _ => kickLoop kt rest s acc
    else kickLoop kt rest s acc

/-- `kick_stale_candidates`: empty snapshot short-circuits; otherwise sort
the snapshot, compute rank and threshold, and walk the slice strictly
below the rank index. -/
def kick_stale_candidates (s : State A) : List A × State A :=
  if s.blocksPerCollator.isEmpty then ([], s)
  else
    kickLoop (kickThresholdOf cfg s)
      (((sortedPerf s).take (kickRank cfg s)).map Prod.fst) s []

/-- `new_session`: kick stale candidates, then assemble invulnerables with
the surviving candidates in registry order. -/
def new_session (s : State A) : List A × State A :=
  let candidates := s.candidates
  let res := kick_stale_candidates cfg s
  let active := candidates.filterMap fun x =>
    if x.who ∈ res.1 then none else some x.who
  (assemble_collators active res.2, res.2)

/-- The genesis state built by `GenesisBuild` (candidates, counters and
events empty; the currency starts with no reserved funds and externally
given free balances). -/
def genesisState (inv : List A) (bond desired : Nat) (free0 : A → Nat) : State A :=
  { invulnerables := inv
    candidates := []
    blocksPerCollator := []
    desiredCandidates := desired
    candidacyBond := bond
    free := free0
    reserved := fun _ => 0
    events := [] }

/-- One successful state transition of the pallet: any dispatchable that
returns `Ok` (a failing dispatchable leaves the state unchanged), or one
of the authorship / session hooks. -/
inductive Step : State A → State A → Prop where
  | registerAs (who : A) (s : State A) :
      (register_as_candidate cfg who s).1 = .ok () →
      Step s (register_as_candidate cfg who s).2
  | registerC (who : A) (s : State A) :
      (register_candidate cfg who s).1 = .ok () →
      Step s (register_candidate cfg who s).2
  | leave (who : A) (s : State A) :
      (leave_intent who s).1 = .ok () → Step s (leave_intent who s).2
  | removeCol (who : A) (s : State A) :
      (remove_collator who s).1 = .ok () → Step s (remove_collator who s).2
  | setInvulnerables (new : List A) (s : State A) :
      Step s (set_invulnerables new s).2
  | setDesired (max : Nat) (s : State A) :
      Step s (set_desired_candidates max s).2
  | setBond (bond : Nat) (s : State A) :
      Step s (set_candidacy_bond bond s).2
  | noteAuthor (author : A) (s : State A) :
      Step s (note_author cfg author s)
  | startSession (s : State A) : Step s (start_session s)
  | newSession (s : State A) : Step s (new_session cfg s).2

/-- Reachability: a genesis state satisfying the genesis assertions,
followed by any sequence of operations. -/
inductive Reachable : State A → Prop where
  | genesis (inv : List A) (bond desired : Nat) (free0 : A → Nat) :
      inv.Nodup →
      inv.length ≤ cfg.maxInvulnerables →
      desired ≤ cfg.maxCandidates →
      cfg.percentileToConsider < 100 →
      cfg.underperformPercent ≤ 100 →
      Reachable (genesisState inv bond desired free0)
  | step {s s' : State A} : Reachable s → Step cfg s s' → Reachable s'

/-- The operations with `set_invulnerables` restricted to lists disjoint
from the current candidates (the trusted-governance discipline). -/
inductive StepD : State A → State A → Prop where
  | registerAs (who : A) (s : State A) :
      (register_as_candidate cfg who s).1 = .ok () →
      StepD s (register_as_candidate cfg who s).2
  | registerC (who : A) (s : State A) :
      (register_candidate cfg who s).1 = .ok () →
      StepD s (register_candidate cfg who s).2
  | leave (who : A) (s : State A) :
      (leave_intent who s).1 = .ok () → StepD s (leave_intent who s).2
  | removeCol (who : A) (s : State A) :
      (remove_collator who s).1 = .ok () → StepD s (remove_collator who s).2
  | setInvulnerables (new : List A) (s : State A) :
      (∀ a ∈ new, a ∉ candWhos s) → StepD s (set_invulnerables new s).2
  | setDesired (max : Nat) (s : State A) :
      StepD s (set_desired_candidates max s).2
  | setBond (bond : Nat) (s : State A) :
      StepD s (set_candidacy_bond bond s).2
  | noteAuthor (author : A) (s : State A) :
      StepD s (note_author cfg author s)
  | startSession (s : State A) : StepD s (start_session s)
  | newSession (s : State A) : StepD s (new_session cfg s).2

/-- Reachability under the restricted `set_invulnerables` discipline. -/
inductive ReachableD : State A → Prop where
  | genesis (inv : List A) (bond desired : Nat) (free0 : A → Nat) :
      inv.Nodup →
      inv.length ≤ cfg.maxInvulnerables →
      desired ≤ cfg.maxCandidates →
      cfg.percentileToConsider < 100 →
      cfg.underperformPercent ≤ 100 →
      ReachableD (genesisState inv bond desired free0)
  | step {s s' : State A} : ReachableD s → StepD cfg s s' → ReachableD s'

/-- No account is simultaneously invulnerable and a candidate. -/
def DisjointIC (s : State A) : Prop :=
  ∀ a ∈ s.invulnerables, a ∉ candWhos s

/-- Bond conservation: candidate accounts are duplicate-free and every
account's reserved balance is the sum of the deposits its candidate
entries record (so a candidate's reserved balance is exactly its recorded
deposit, and a non-candidate has nothing reserved). -/
def BondInv (s : State A) : Prop :=
  (candWhos s).Nodup ∧
  ∀ a, s.reserved a =
    ((s.candidates.filter fun c => decide (c.who = a)).map CandidateInfo.deposit).sum

/-- The operation alphabet, for reasoning about operation sequences. -/
inductive OpC (A : Type) where
  | registerAs (who : A)
  | registerC (who : A)
  | leave (who : A)
  | removeCol (who : A)
  | setInv (new : List A)
  | setDesired (max : Nat)
  | setBond (bond : Nat)
  | noteAuthor (who : A)
  | startSession
  | newSession
deriving DecidableEq

/-- Apply one operation to the state (a failing dispatchable leaves the
state unchanged). -/
def applyOp : OpC A → State A → State A
  | .registerAs who, s => (register_as_candidate cfg who s).2
  | .registerC who, s => (register_candidate cfg who s).2
  | .leave who, s => (leave_intent who s).2
  | .removeCol who, s => (remove_collator who s).2
  | .setInv new, s => (set_invulnerables new s).2
  | .setDesired max, s => (set_desired_candidates max s).2
  | .setBond bond, s => (set_candidacy_bond bond s).2
  | .noteAuthor who, s => note_author cfg who s
  | .startSession, s => start_session s
  | .newSession, s => (new_session cfg s).2

end Ops

/-! ### Concrete instances used by examples, witnesses and counterexamples -/

/-- A concrete configuration: percentile 20, underperformance 50,
existential minimum 10, every account resolvable and registered. -/
def cfgE : Config Nat :=
  { potId := 0
    maxCandidates := 100
    maxInvulnerables := 100
    percentileToConsider := 20
    underperformPercent := 50
    minimumBalance := 10
    validatorIdOf := fun a => some a
    isRegistered := fun _ => true
    validators := [] }

/-- The spec's percentile test state: ten candidates whose session
performance counts are `[1,…,10]`. -/
def sE : State Nat :=
  { invulnerables := []
    candidates := (List.range 10).map fun i => ⟨i + 1, 10⟩
    blocksPerCollator := (List.range 10).map fun i => (i + 1, i + 1)
    desiredCandidates := 100
    candidacyBond := 10
    free := fun _ => 100
    reserved := fun a => if 1 ≤ a ∧ a ≤ 10 then 10 else 0
    events := [] }

/-! ### Further concrete instances -/

/-- The counterexample configuration for the eviction characterization:
percentile 90, underperformance 50. -/
def cfgX : Config Nat :=
  { cfgE with percentileToConsider := 90 }

/-- A state whose performance map tracks three accounts, none of which is
a registered candidate. -/
def sX : State Nat :=
  { invulnerables := []
    candidates := []
    blocksPerCollator := [(7, 0), (8, 5), (9, 9)]
    desiredCandidates := 100
    candidacyBond := 0
    free := fun _ => 100
    reserved := fun _ => 0
    events := [] }

/-- A genesis state with bond `0` and desired-candidates `5`. -/
def g1 : State Nat :=
  genesisState [] 0 5 fun _ => 100

/-- `g1` after account `7` registered as a candidate. -/
def c1s1 : State Nat :=
  (register_as_candidate cfgE 7 g1).2

/-- `c1s1` after governance set the invulnerables to `[7]` — account `7`
is now simultaneously invulnerable and a candidate. -/
def c1s2 : State Nat :=
  (set_invulnerables [7] c1s1).2

/-- A genesis state with bond `10` and desired-candidates `5`. -/
def g2 : State Nat :=
  genesisState [] 10 5 fun _ => 100

/-- `g2` after account `7` registered (reserving the bond of `10`). -/
def s5 : State Nat :=
  (register_as_candidate cfgE 7 g2).2

/-- The pot (account `0`) holds `1000`, everyone else `600`. -/
def sC4 : State Nat :=
  { sE with free := fun a => if a = 0 then 1000 else 600 }

/-- One candidate, desired-candidate target `1`: the list is full. -/
def sC6 : State Nat :=
  { invulnerables := []
    candidates := [⟨5, 0⟩]
    blocksPerCollator := []
    desiredCandidates := 1
    candidacyBond := 0
    free := fun _ => 100
    reserved := fun _ => 0
    events := [] }

/-- One candidate, desired-candidate target `2`: capacity available. -/
def sC6b : State Nat :=
  { sC6 with desiredCandidates := 2 }

/-- Two candidates, desired-candidate target `2`: the list is full. -/
def sC7 : State Nat :=
  { sC6 with candidates := [⟨1, 0⟩, ⟨2, 0⟩], desiredCandidates := 2 }

/-- Invulnerables `[1, 2]` for the assembly-order test. -/
def sAB : State Nat :=
  { sE with invulnerables := [1, 2] }


/-! ### Concrete evaluations -/

example : ordinalRank 20 10 = 1 := by decide
example : rankSpec 20 10 = 1 := by decide
example : kickThresholdF 50 2 = 1 := by decide
example : kickThresholdSpec 50 2 = 1 := by decide
example : ordinalRank 29 100 = 27 := by decide
example : rankSpec 29 100 = 28 := by decide

example : (kick_stale_candidates cfgE sE).1 = [1] := by decide

example : (register_as_candidate cfgE 7 (genesisState [] 10 5 fun _ => 100)).1 = .ok () := by
  rfl

example :
    7 ∈ candWhos (register_as_candidate cfgE 7 (genesisState [] 10 5 fun _ => 100)).2 := by
  decide

/-! ### Helper lemmas about the storage primitives -/

section Lemmas

variable {A : Type} [DecidableEq A]

theorem lookupCount_cons (p : A × Nat) (m : List (A × Nat)) (b : A) :
    lookupCount (p :: m) b = if p.1 = b then p.2 else lookupCount m b := by
  by_cases hpb : p.1 = b <;> simp [lookupCount, List.find?_cons, hpb]

theorem removeKey_cons (p : A × Nat) (m : List (A × Nat)) (a : A) :
    removeKey (p :: m) a = if p.1 = a then removeKey m a else p :: removeKey m a := by
  by_cases hpa : p.1 = a <;> simp [removeKey, List.filter_cons, hpa]

theorem lookupCount_removeKey_ne (m : List (A × Nat)) {a b : A} (h : b ≠ a) :
    lookupCount (removeKey m a) b = lookupCount m b := by
  induction m with
  | nil => rfl
  | cons p m ih =>
    by_cases hpa : p.1 = a
    · rw [removeKey_cons, if_pos hpa, ih, lookupCount_cons,
        if_neg (by rw [hpa]; exact fun hh => h hh.symm)]
    · rw [removeKey_cons, if_neg hpa, lookupCount_cons, lookupCount_cons, ih]

theorem lookupCount_eq_zero_of_not_mem {m : List (A × Nat)} {a : A}
    (h : a ∉ m.map Prod.fst) : lookupCount m a = 0 := by
  induction m with
  | nil => rfl
  | cons p m ih =>
    rw [lookupCount_cons, if_neg (fun hh => h (by simp [← hh]))]
    exact ih fun hh => h (by simp [List.mem_map] at hh ⊢; exact Or.inr hh)

theorem keys_removeKey_subset (m : List (A × Nat)) (a : A) :
    (removeKey m a).map Prod.fst ⊆ m.map Prod.fst :=
  ((List.filter_sublist m).map Prod.fst).subset

theorem not_mem_keys_removeKey (m : List (A × Nat)) (a : A) :
    a ∉ (removeKey m a).map Prod.fst := by
  intro hmem
  rcases List.mem_map.1 hmem with ⟨p, hp, hpa⟩
  have := List.of_mem_filter hp
  simp only [decide_not, Bool.not_eq_true', decide_eq_false_iff_not] at this
  exact this hpa

theorem lookupCount_insertCount_self (m : List (A × Nat)) (a : A) (v : Nat) :
    lookupCount (insertCount m a v) a = v := by
  have key : ∀ t : List (A × Nat), a ∉ t.map Prod.fst →
      lookupCount (t ++ [(a, v)]) a = v := by
    intro t ht
    induction t with
    | nil => simp [lookupCount, List.find?_cons]
    | cons p t ih =>
      rw [List.cons_append, lookupCount_cons, if_neg (fun hh => ht (by simp [← hh]))]
      exact ih fun hh => ht (by simp [List.mem_map] at hh ⊢; exact Or.inr hh)
  exact key _ (not_mem_keys_removeKey m a)

theorem keys_insertCount (m : List (A × Nat)) (a b : A) (v : Nat)
    (hb : b ∈ (insertCount m a v).map Prod.fst) : b = a ∨ b ∈ m.map Prod.fst := by
  simp only [insertCount, List.map_append, List.mem_append] at hb
  rcases hb with hb | hb
  · exact Or.inr (keys_removeKey_subset m a hb)
  · simp at hb
    exact Or.inl hb

theorem mem_map_who_eraseP {l : List (CandidateInfo A)} {a b : A} (h : b ≠ a) :
    b ∈ ((l.eraseP fun c => decide (c.who = a)).map CandidateInfo.who) ↔
      b ∈ l.map CandidateInfo.who := by
  induction l with
  | nil => simp
  | cons c l ih =>
    by_cases hc : c.who = a
    · simp only [List.eraseP_cons, hc, decide_True, cond_true, List.map_cons,
        List.mem_cons]
      constructor
      · exact Or.inr
      · rintro (hb | hb)
        · exact absurd hb h
        · exact hb
    · simp only [List.eraseP_cons, hc, decide_False, cond_false, List.map_cons,
        List.mem_cons, ih]

theorem filter_who_eq_nil_of_not_mem {l : List (CandidateInfo A)} {a : A}
    (h : a ∉ l.map CandidateInfo.who) :
    l.filter (fun c => decide (c.who = a)) = [] := by
  induction l with
  | nil => rfl
  | cons c l ih =>
    have hc : ¬ (c.who = a) := fun hh => h (by simp [← hh])
    simp only [List.filter_cons, hc, decide_False, cond_false]
    exact ih fun hh => h (by simp [List.mem_map] at hh ⊢; exact Or.inr hh)

theorem filter_who_eraseP_ne {l : List (CandidateInfo A)} {a b : A} (h : b ≠ a) :
    (l.eraseP fun c => decide (c.who = a)).filter (fun c => decide (c.who = b)) =
      l.filter (fun c => decide (c.who = b)) := by
  induction l with
  | nil => simp
  | cons c l ih =>
    by_cases hc : c.who = a
    · simp only [List.eraseP_cons, hc, decide_True, cond_true, List.filter_cons]
      rw [if_neg (by simp only [decide_eq_true_eq]; exact fun hh => h hh.symm)]
    · simp only [List.eraseP_cons, hc, decide_False, cond_false, List.filter_cons, ih]

/-- Under a duplicate-free candidate list, the first entry found for an
account is its only entry, and erasing it leaves no entry for that
account. -/
theorem find?_who_nodup {l : List (CandidateInfo A)} {a : A} {c : CandidateInfo A}
    (hnd : (l.map CandidateInfo.who).Nodup)
    (hf : l.find? (fun c => decide (c.who = a)) = some c) :
    c.who = a ∧ l.filter (fun c => decide (c.who = a)) = [c] ∧
      (l.eraseP fun c => decide (c.who = a)).filter (fun c => decide (c.who = a)) = [] := by
  induction l with
  | nil => simp at hf
  | cons d l ih =>
    rw [List.map_cons, List.nodup_cons] at hnd
    by_cases hd : d.who = a
    · rw [List.find?_cons_of_pos _ (by simp [hd])] at hf
      injection hf with hf
      subst hf
      have hnotin : a ∉ l.map CandidateInfo.who := hd ▸ hnd.1
      refine ⟨hd, ?_, ?_⟩
      · simp only [List.filter_cons, hd, decide_True, if_true,
          filter_who_eq_nil_of_not_mem hnotin]
      · simp only [List.eraseP_cons, hd, decide_True, cond_true,
          filter_who_eq_nil_of_not_mem hnotin]
    · rw [List.find?_cons_of_neg _ (by simp [hd])] at hf
      obtain ⟨h1, h2, h3⟩ := ih hnd.2 hf
      refine ⟨h1, ?_, ?_⟩
      · simp [List.filter_cons, hd, h2]
      · simp [List.eraseP_cons, hd, List.filter_cons, h3]

theorem find?_who_isSome_of_mem {l : List (CandidateInfo A)} {a : A}
    (h : a ∈ l.map CandidateInfo.who) :
    ∃ c, l.find? (fun c => decide (c.who = a)) = some c := by
  induction l with
  | nil => simp at h
  | cons d l ih =>
    by_cases hd : d.who = a
    · exact ⟨d, List.find?_cons_of_pos _ (by simp [hd])⟩
    · rw [List.map_cons, List.mem_cons] at h
      rcases h with h | h
      · exact absurd h.symm hd
      · obtain ⟨c, hc⟩ := ih h
        exact ⟨c, by rw [List.find?_cons_of_neg _ (by simp [hd]), hc]⟩

theorem find?_who_eq_none_of_not_mem {l : List (CandidateInfo A)} {a : A}
    (h : a ∉ l.map CandidateInfo.who) :
    l.find? (fun c => decide (c.who = a)) = none := by
  rw [List.find?_eq_none]
  intro c hc hca
  simp only [decide_eq_true_eq] at hca
  exact h (List.mem_map.2 ⟨c, hc, hca⟩)

/-! ### Inversion lemmas for the operations -/

theorem try_remove_error_of_not_mem {a : A} {s : State A} (h : a ∉ candWhos s) :
    try_remove_candidate a s = .error .NotCandidate := by
  unfold try_remove_candidate
  rw [find?_who_eq_none_of_not_mem h]

theorem try_remove_ok_inv {a : A} {s s' : State A}
    (h : try_remove_candidate a s = .ok s') :
    ∃ c, s.candidates.find? (fun c => decide (c.who = a)) = some c ∧
      s' = { invulnerables := s.invulnerables
             candidates := s.candidates.eraseP fun c2 => decide (c2.who = a)
             blocksPerCollator := removeKey s.blocksPerCollator a
             desiredCandidates := s.desiredCandidates
             candidacyBond := s.candidacyBond
             free := updFn s.free a (s.free a + min c.deposit (s.reserved a))
             reserved := updFn s.reserved a (s.reserved a - min c.deposit (s.reserved a))
             events := s.events ++ [PalletEvent.CandidateRemoved a] } := by
  unfold try_remove_candidate at h
  cases hfind : s.candidates.find? (fun c => decide (c.who = a)) with
  | none => rw [hfind] at h; cases h
  | some c =>
    rw [hfind] at h
    injection h with h
    exact ⟨c, rfl, h.symm⟩

theorem try_remove_ok_of_mem {a : A} {s : State A} (h : a ∈ candWhos s) :
    ∃ s', try_remove_candidate a s = .ok s' := by
  obtain ⟨c, hc⟩ := find?_who_isSome_of_mem h
  exact ⟨_, by unfold try_remove_candidate; rw [hc]⟩

theorem registerCore_ok_inv {cfg : Config A} {who : A} {s s' : State A}
    (h : registerCore cfg who s = .ok s') :
    s.candidates.length < s.desiredCandidates ∧
    who ∉ s.invulnerables ∧
    who ∉ candWhos s ∧
    s.candidacyBond ≤ s.free who ∧
    s' = { invulnerables := s.invulnerables
           candidates := s.candidates ++ [⟨who, s.candidacyBond⟩]
           blocksPerCollator := s.blocksPerCollator
           desiredCandidates := s.desiredCandidates
           candidacyBond := s.candidacyBond
           free := updFn s.free who (s.free who - s.candidacyBond)
           reserved := updFn s.reserved who (s.reserved who + s.candidacyBond)
           events := s.events ++ [PalletEvent.CandidateAdded who s.candidacyBond] } := by
  unfold registerCore reserveC at h
  split at h
  case isFalse => cases h
  case isTrue hcap =>
    split at h
    case isTrue => cases h
    case isFalse hinv =>
      split at h
      · cases h
      case h_2 key hkey =>
        split at h
        case isFalse => cases h
        case isTrue hreg =>
          split at h
          case isTrue => cases h
          case isFalse hany =>
            by_cases hbal : s.candidacyBond ≤ s.free who
            · rw [if_pos hbal] at h
              injection h with h
              refine ⟨hcap, hinv, ?_, hbal, h.symm⟩
              intro hmem
              apply hany
              rw [List.any_eq_true]
              rcases List.mem_map.1 hmem with ⟨c, hcm, hcw⟩
              exact ⟨c, hcm, by simp [hcw]⟩
            · rw [if_neg hbal] at h
              cases h

theorem register_as_candidate_cases (cfg : Config A) (who : A) (s : State A) :
    (∃ s', registerCore cfg who s = .ok s' ∧
      register_as_candidate cfg who s = (.ok (), s')) ∨
    (∃ e, registerCore cfg who s = .error e ∧
      register_as_candidate cfg who s = (.error e, s)) := by
  cases hrc : registerCore cfg who s with
  | ok s' => exact Or.inl ⟨s', rfl, by unfold register_as_candidate; rw [hrc]⟩
  | error e => exact Or.inr ⟨e, rfl, by unfold register_as_candidate; rw [hrc]⟩

theorem register_candidate_cases (cfg : Config A) (who : A) (s : State A) :
    (∃ s', registerCore cfg who s = .ok s' ∧
      register_candidate cfg who s = (.ok (), s')) ∨
    (∃ e, registerCore cfg who s = .error e ∧
      register_candidate cfg who s = (.error e, s)) := by
  cases hrc : registerCore cfg who s with
  | ok s' => exact Or.inl ⟨s', rfl, by unfold register_candidate; rw [hrc]⟩
  | error e => exact Or.inr ⟨e, rfl, by unfold register_candidate; rw [hrc]⟩

theorem leave_intent_cases (who : A) (s : State A) :
    (∃ s', try_remove_candidate who s = .ok s' ∧ leave_intent who s = (.ok (), s')) ∨
    (∃ e, try_remove_candidate who s = .error e ∧ leave_intent who s = (.error e, s)) := by
  cases hrc : try_remove_candidate who s with
  | ok s' => exact Or.inl ⟨s', rfl, by unfold leave_intent; rw [hrc]⟩
  | error e => exact Or.inr ⟨e, rfl, by unfold leave_intent; rw [hrc]⟩

theorem remove_collator_cases (who : A) (s : State A) :
    remove_collator who s = (.error .NotAllowRemoveInvulnerable, s) ∨
    (∃ s', try_remove_candidate who s = .ok s' ∧ remove_collator who s = (.ok (), s')) ∨
    (∃ e, try_remove_candidate who s = .error e ∧
      remove_collator who s = (.error e, s)) := by
  by_cases hinv : who ∈ s.invulnerables
  · exact Or.inl (by unfold remove_collator; rw [if_pos hinv])
  · cases hrc : try_remove_candidate who s with
    | ok s' =>
      exact Or.inr (Or.inl ⟨s', rfl, by unfold remove_collator; rw [if_neg hinv, hrc]⟩)
    | error e =>
      exact Or.inr (Or.inr ⟨e, rfl, by unfold remove_collator; rw [if_neg hinv, hrc]⟩)

theorem transferKeepAlive_ok_inv {cfg : Config A} {p q : A} {amt : Nat}
    {s t : State A} (h : transferKeepAlive cfg p q amt s = .ok t) :
    t.invulnerables = s.invulnerables ∧ t.candidates = s.candidates ∧
    t.blocksPerCollator = s.blocksPerCollator ∧
    t.desiredCandidates = s.desiredCandidates ∧
    t.candidacyBond = s.candidacyBond ∧
    t.reserved = s.reserved ∧ t.events = s.events := by
  unfold transferKeepAlive at h
  split at h
  · injection h with h; subst h; exact ⟨rfl, rfl, rfl, rfl, rfl, rfl, rfl⟩
  · split at h
    · injection h with h; subst h; exact ⟨rfl, rfl, rfl, rfl, rfl, rfl, rfl⟩
    · cases h

/-- The author's counter after `note_author` and the invariance of all
non-balance state components. -/
theorem note_author_fields (cfg : Config A) (author : A) (s : State A) :
    (note_author cfg author s).invulnerables = s.invulnerables ∧
    (note_author cfg author s).candidates = s.candidates ∧
    (note_author cfg author s).reserved = s.reserved ∧
    (note_author cfg author s).desiredCandidates = s.desiredCandidates ∧
    (note_author cfg author s).candidacyBond = s.candidacyBond ∧
    (note_author cfg author s).blocksPerCollator =
      insertCount s.blocksPerCollator author
        (min (lookupCount s.blocksPerCollator author + 1) (2 ^ 32 - 1)) := by
  cases htr : transferKeepAlive cfg cfg.potId author
      ((s.free cfg.potId - cfg.minimumBalance) / 2) s with
  | ok t =>
    obtain ⟨h1, h2, h3, h4, h5, h6, h7⟩ := transferKeepAlive_ok_inv htr
    simp only [note_author, htr]
    exact ⟨h1, h2, h6, h4, h5, by rw [h3]⟩
  | error e =>
    simp [note_author, htr]

/-- The reward actually credited by `note_author`: the model's transfer
always succeeds (a zero reward is a no-op, and a positive reward leaves
the pot with at least the existential minimum), so the author's free
balance grows by exactly half the pot surplus. -/
theorem note_author_free {cfg : Config A} {author : A} (s : State A)
    (hne : author ≠ cfg.potId) :
    (note_author cfg author s).free author =
      s.free author + (s.free cfg.potId - cfg.minimumBalance) / 2 := by
  by_cases hr : (s.free cfg.potId - cfg.minimumBalance) / 2 = 0
  · have htr : transferKeepAlive cfg cfg.potId author
        ((s.free cfg.potId - cfg.minimumBalance) / 2) s = .ok s := by
      unfold transferKeepAlive
      rw [if_pos hr]
    simp only [note_author, htr]
    simp [hr]
  · have hcond : (s.free cfg.potId - cfg.minimumBalance) / 2 ≤ s.free cfg.potId ∧
        cfg.minimumBalance ≤
          s.free cfg.potId - (s.free cfg.potId - cfg.minimumBalance) / 2 := by
      have hds : (s.free cfg.potId - cfg.minimumBalance) / 2 ≤
          s.free cfg.potId - cfg.minimumBalance := Nat.div_le_self _ _
      omega
    cases htr : transferKeepAlive cfg cfg.potId author
        ((s.free cfg.potId - cfg.minimumBalance) / 2) s with
    | error e =>
      exfalso
      unfold transferKeepAlive at htr
      rw [if_neg hr, if_pos hcond] at htr
      cases htr
    | ok t =>
      have hfree : t.free author =
          s.free author + (s.free cfg.potId - cfg.minimumBalance) / 2 := by
        unfold transferKeepAlive at htr
        rw [if_neg hr, if_pos hcond] at htr
        injection htr with htr
        rw [← htr]
        simp [updFn, hne]
      simp only [note_author, htr]
      exact hfree

theorem kickLoop_preserves {P : State A → Prop}
    (hP : ∀ who (s s' : State A), try_remove_candidate who s = .ok s' → P s → P s')
    (kt : Nat) :
    ∀ (l : List A) (s : State A) (acc : List A), P s → P (kickLoop kt l s acc).2 := by
  intro l
  induction l with
  | nil => intro s acc hs; exact hs
  | cons a rest ih =>
    intro s acc hs
    simp only [kickLoop]
    split
    · split
      · exact ih s acc hs
      · split
        case h_1 s' heq => exact ih _ _ (hP a s s' heq hs)
        case h_2 e heq => exact ih s acc hs
    · exact ih s acc hs

theorem kickLoop_subset (kt : Nat) :
    ∀ (l : List A) (s : State A) (acc : List A) (b : A),
      b ∈ (kickLoop kt l s acc).1 → b ∈ acc ++ l := by
  intro l
  induction l with
  | nil => intro s acc b hb; simpa [kickLoop] using hb
  | cons a rest ih =>
    intro s acc b hb
    simp only [kickLoop] at hb
    have push : b ∈ acc ++ rest → b ∈ acc ++ a :: rest := by
      intro h
      rcases List.mem_append.1 h with h | h
      · exact List.mem_append.2 (Or.inl h)
      · exact List.mem_append.2 (Or.inr (List.mem_cons_of_mem a h))
    split at hb
    · split at hb
      · exact push (ih s acc b hb)
      · split at hb
        case h_1 s' heq =>
          have := ih s' (acc ++ [a]) b hb
          rcases List.mem_append.1 this with h | h
          · rcases List.mem_append.1 h with h | h
            · exact List.mem_append.2 (Or.inl h)
            · simp at h
              exact List.mem_append.2 (Or.inr (h ▸ List.mem_cons_self a rest))
          · exact List.mem_append.2 (Or.inr (List.mem_cons_of_mem a h))
        case h_2 e heq => exact push (ih s acc b hb)
    · exact push (ih s acc b hb)

/-- Exact characterization of the eviction loop: over a duplicate-free
worklist, the accounts recorded as removed are precisely those whose
original count is at or below the threshold, which are not invulnerable,
and which are present in the candidate registry. -/
theorem kickLoop_char (kt : Nat) (inv0 : List A) (c0 : A → Nat) (cIn : A → Bool) :
    ∀ (l : List A) (s : State A) (acc : List A),
      l.Nodup →
      s.invulnerables = inv0 →
      (∀ a ∈ l, lookupCount s.blocksPerCollator a = c0 a) →
      (∀ a ∈ l, (a ∈ candWhos s ↔ cIn a = true)) →
      (kickLoop kt l s acc).1 =
        acc ++ l.filter fun a => decide (c0 a ≤ kt ∧ a ∉ inv0 ∧ cIn a = true) := by
  intro l
  induction l with
  | nil => intro s acc _ _ _ _; simp [kickLoop]
  | cons a rest ih =>
    intro s acc hnd hinv hcount hcand
    rw [List.nodup_cons] at hnd
    have hca := hcount a (List.mem_cons_self a rest)
    have hcount' : ∀ b ∈ rest, lookupCount s.blocksPerCollator b = c0 b :=
      fun b hb => hcount b (List.mem_cons_of_mem a hb)
    have hcand' : ∀ b ∈ rest, (b ∈ candWhos s ↔ cIn b = true) :=
      fun b hb => hcand b (List.mem_cons_of_mem a hb)
    simp only [kickLoop]
    by_cases h1 : lookupCount s.blocksPerCollator a ≤ kt
    · rw [if_pos h1]
      by_cases h2 : a ∈ s.invulnerables
      · rw [if_pos h2]
        have hdec : decide (c0 a ≤ kt ∧ a ∉ inv0 ∧ cIn a = true) = false := by
          have : a ∈ inv0 := hinv ▸ h2
          simp [this]
        rw [List.filter_cons, hdec]
        rw [if_neg Bool.false_ne_true]
        exact ih s acc hnd.2 hinv hcount' hcand'
      · rw [if_neg h2]
        by_cases h3 : cIn a = true
        · have hmem : a ∈ candWhos s := (hcand a (List.mem_cons_self a rest)).2 h3
          obtain ⟨s', hs'⟩ := try_remove_ok_of_mem hmem
          obtain ⟨c, hfind, hs'eq⟩ := try_remove_ok_inv hs'
          simp only [hs']
          have hinv2 : s'.invulnerables = inv0 := by rw [hs'eq]; exact hinv
          have hcount2 : ∀ b ∈ rest, lookupCount s'.blocksPerCollator b = c0 b := by
            intro b hb
            have hneq : b ≠ a := fun he => hnd.1 (he ▸ hb)
            rw [hs'eq]
            show lookupCount (removeKey s.blocksPerCollator a) b = c0 b
            rw [lookupCount_removeKey_ne _ hneq]
            exact hcount' b hb
          have hcand2 : ∀ b ∈ rest, (b ∈ candWhos s' ↔ cIn b = true) := by
            intro b hb
            have hneq : b ≠ a := fun he => hnd.1 (he ▸ hb)
            rw [hs'eq]
            show b ∈ (s.candidates.eraseP
                fun c2 => decide (c2.who = a)).map CandidateInfo.who ↔ cIn b = true
            rw [mem_map_who_eraseP hneq]
            exact hcand' b hb
          rw [ih s' (acc ++ [a]) hnd.2 hinv2 hcount2 hcand2]
          have hdec : decide (c0 a ≤ kt ∧ a ∉ inv0 ∧ cIn a = true) = true := by
            have hni : a ∉ inv0 := fun hin => h2 (hinv ▸ hin)
            simp [hca ▸ h1, hni, h3]
          rw [List.filter_cons, hdec]
          simp [List.append_assoc]
        · have hmem : a ∉ candWhos s :=
            fun hm => h3 ((hcand a (List.mem_cons_self a rest)).1 hm)
          have herr := try_remove_error_of_not_mem hmem
          simp only [herr]
          rw [ih s acc hnd.2 hinv hcount' hcand']
          have hdec : decide (c0 a ≤ kt ∧ a ∉ inv0 ∧ cIn a = true) = false := by
            simp [h3]
          rw [List.filter_cons, hdec]
          rw [if_neg Bool.false_ne_true]
    · rw [if_neg h1]
      have hdec : decide (c0 a ≤ kt ∧ a ∉ inv0 ∧ cIn a = true) = false := by
        rw [hca] at h1
        simp [h1]
      rw [List.filter_cons, hdec]
      rw [if_neg Bool.false_ne_true]
      exact ih s acc hnd.2 hinv hcount' hcand'

/-- `kick_stale_candidates` on a state whose tracked accounts are
duplicate-free evicts exactly the accounts in the slice strictly below the
rank index whose count is at or below the threshold, which are not
invulnerable, and which are registered candidates. -/
theorem kick_char (cfg : Config A) (s : State A)
    (hnd : (s.blocksPerCollator.map Prod.fst).Nodup) :
    (kick_stale_candidates cfg s).1 =
      (((sortedPerf s).take (kickRank cfg s)).map Prod.fst).filter
        fun a => decide (lookupCount s.blocksPerCollator a ≤ kickThresholdOf cfg s ∧
          a ∉ s.invulnerables ∧ a ∈ candWhos s) := by
  cases hb : s.blocksPerCollator with
  | nil =>
    unfold kick_stale_candidates
    rw [hb]
    simp [sortedPerf, hb, List.insertionSort]
  | cons p m =>
    unfold kick_stale_candidates
    rw [hb]
    simp only [List.isEmpty_cons, Bool.false_eq_true, if_false]
    rw [← hb]
    have hperm : List.Perm (sortedPerf s) s.blocksPerCollator :=
      List.perm_insertionSort _ _
    have hndsorted : ((sortedPerf s).map Prod.fst).Nodup :=
      ((hperm.map Prod.fst).nodup_iff).2 hnd
    have hndl : (((sortedPerf s).take (kickRank cfg s)).map Prod.fst).Nodup := by
      rw [List.map_take]
      exact (List.take_sublist _ _).nodup hndsorted
    rw [kickLoop_char (kickThresholdOf cfg s) s.invulnerables
      (lookupCount s.blocksPerCollator) (fun a => decide (a ∈ candWhos s)) _ s []
      hndl rfl (fun a _ => rfl) (fun a _ => by simp)]
    rw [List.nil_append]
    apply List.filter_congr
    intro a _
    simp

/-- The eviction pass preserves any state predicate that is preserved by
single candidate removals. -/
theorem kick_preserves {P : State A → Prop}
    (hP : ∀ who (s s' : State A), try_remove_candidate who s = .ok s' → P s → P s')
    (cfg : Config A) (s : State A) (hs : P s) :
    P (kick_stale_candidates cfg s).2 := by
  unfold kick_stale_candidates
  split
  · exact hs
  · exact kickLoop_preserves hP _ _ s [] hs

theorem try_remove_preserves_disjoint :
    ∀ who (s s' : State A), try_remove_candidate who s = .ok s' →
      DisjointIC s → DisjointIC s' := by
  intro who s s' h hd
  obtain ⟨c, hfind, heq⟩ := try_remove_ok_inv h
  subst heq
  intro a ha hmem
  have ha' : a ∈ s.invulnerables := ha
  have hmem' : a ∈ (s.candidates.eraseP
      fun c2 => decide (c2.who = who)).map CandidateInfo.who := hmem
  exact hd a ha' (((List.eraseP_sublist _).map _).subset hmem')

/-- Every state reachable under the restricted `set_invulnerables`
discipline keeps the invulnerable set and the candidate accounts
disjoint. -/
theorem reachableD_DisjointIC {cfg : Config A} {s : State A}
    (h : ReachableD cfg s) : DisjointIC s := by
  induction h with
  | genesis inv bond desired free0 _ _ _ _ _ =>
    intro a _ hmem
    simp [genesisState, candWhos] at hmem
  | @step t t' _ hstep ih =>
    cases hstep with
    | registerAs who _s hok =>
      rcases register_as_candidate_cases cfg who t with ⟨u, hcore, heq⟩ | ⟨e, _, heq⟩
      · obtain ⟨_, hinv, _, _, hu⟩ := registerCore_ok_inv hcore
        have h2 : (register_as_candidate cfg who t).2 = u := by rw [heq]
        rw [h2, hu]
        intro a ha hmem
        have ha' : a ∈ t.invulnerables := ha
        have hmem' : a ∈ (t.candidates ++
            [(⟨who, t.candidacyBond⟩ : CandidateInfo A)]).map CandidateInfo.who := hmem
        rw [List.map_append] at hmem'
        rcases List.mem_append.1 hmem' with hm | hm
        · exact ih a ha' hm
        · simp at hm
          subst hm
          exact hinv ha'
      · rw [heq] at hok
        cases hok
    | registerC who _s hok =>
      rcases register_candidate_cases cfg who t with ⟨u, hcore, heq⟩ | ⟨e, _, heq⟩
      · obtain ⟨_, hinv, _, _, hu⟩ := registerCore_ok_inv hcore
        have h2 : (register_candidate cfg who t).2 = u := by rw [heq]
        rw [h2, hu]
        intro a ha hmem
        have ha' : a ∈ t.invulnerables := ha
        have hmem' : a ∈ (t.candidates ++
            [(⟨who, t.candidacyBond⟩ : CandidateInfo A)]).map CandidateInfo.who := hmem
        rw [List.map_append] at hmem'
        rcases List.mem_append.1 hmem' with hm | hm
        · exact ih a ha' hm
        · simp at hm
          subst hm
          exact hinv ha'
      · rw [heq] at hok
        cases hok
    | leave who _s hok =>
      rcases leave_intent_cases who t with ⟨u, htr, heq⟩ | ⟨e, _, heq⟩
      · have h2 : (leave_intent who t).2 = u := by rw [heq]
        rw [h2]
        exact try_remove_preserves_disjoint who t u htr ih
      · rw [heq] at hok
        cases hok
    | removeCol who _s hok =>
      rcases remove_collator_cases who t with heq | ⟨u, htr, heq⟩ | ⟨e, _, heq⟩
      · rw [heq] at hok
        cases hok
      · have h2 : (remove_collator who t).2 = u := by rw [heq]
        rw [h2]
        exact try_remove_preserves_disjoint who t u htr ih
      · rw [heq] at hok
        cases hok
    | setInvulnerables new _s hdisj =>
      intro a ha hmem
      have ha' : a ∈ new := ha
      have hmem' : a ∈ candWhos t := hmem
      exact hdisj a ha' hmem'
    | setDesired max _s =>
      intro a ha hm
      exact ih a ha hm
    | setBond bond _s =>
      intro a ha hm
      exact ih a ha hm
    | noteAuthor author _s =>
      have hf := note_author_fields cfg author t
      intro a ha hm
      rw [hf.1] at ha
      simp only [candWhos] at hm
      rw [hf.2.1] at hm
      exact ih a ha hm
    | startSession _s =>
      intro a ha hm
      exact ih a ha hm
    | newSession _s =>
      exact kick_preserves try_remove_preserves_disjoint cfg t ih

theorem try_remove_preserves_bondInv :
    ∀ who (s s' : State A), try_remove_candidate who s = .ok s' →
      BondInv s → BondInv s' := by
  intro who s s' h hb
  obtain ⟨hnd, hres⟩ := hb
  obtain ⟨c, hfind, heq⟩ := try_remove_ok_inv h
  obtain ⟨hcwho, hfilter, hfiltererase⟩ := find?_who_nodup hnd hfind
  subst heq
  constructor
  · show ((s.candidates.eraseP
      fun c2 => decide (c2.who = who)).map CandidateInfo.who).Nodup
    exact ((List.eraseP_sublist _).map CandidateInfo.who).nodup hnd
  · intro a
    show updFn s.reserved who (s.reserved who - min c.deposit (s.reserved who)) a =
      (((s.candidates.eraseP fun c2 => decide (c2.who = who)).filter
        fun c => decide (c.who = a)).map CandidateInfo.deposit).sum
    by_cases ha : a = who
    · subst ha
      have hrw : s.reserved a = c.deposit := by
        rw [hres a, hfilter]
        simp
      rw [hfiltererase]
      simp [updFn, hrw]
    · have hne : a ≠ who := ha
      rw [filter_who_eraseP_ne hne]
      simp only [updFn, if_neg ha]
      exact hres a

theorem registerCore_preserves_bondInv {cfg : Config A} {who : A} {s s' : State A}
    (h : registerCore cfg who s = .ok s') (hb : BondInv s) : BondInv s' := by
  obtain ⟨hnd, hres⟩ := hb
  obtain ⟨hcap, hinv, hfresh, hbal, hs'⟩ := registerCore_ok_inv h
  subst hs'
  constructor
  · show ((s.candidates ++
      [(⟨who, s.candidacyBond⟩ : CandidateInfo A)]).map CandidateInfo.who).Nodup
    rw [List.map_append]
    rw [List.nodup_append]
    refine ⟨hnd, List.nodup_singleton _, ?_⟩
    intro a ha hb2
    simp at hb2
    exact hfresh (hb2 ▸ ha)
  · intro a
    show updFn s.reserved who (s.reserved who + s.candidacyBond) a =
      (((s.candidates ++ [(⟨who, s.candidacyBond⟩ : CandidateInfo A)]).filter
        fun c => decide (c.who = a)).map CandidateInfo.deposit).sum
    rw [List.filter_append]
    by_cases ha : a = who
    · subst ha
      have h0 : s.reserved a = 0 := by
        rw [hres a, filter_who_eq_nil_of_not_mem hfresh]
        simp
      simp [updFn, h0, filter_who_eq_nil_of_not_mem hfresh]
    · have : ([(⟨who, s.candidacyBond⟩ : CandidateInfo A)].filter
          fun c => decide (c.who = a)) = [] := by
        simp [List.filter_cons]
        exact fun hh => ha hh.symm
      rw [this]
      simp only [updFn, if_neg ha, List.append_nil]
      exact hres a

/-- Every reachable state satisfies bond conservation. -/
theorem reachable_BondInv {cfg : Config A} {s : State A}
    (h : Reachable cfg s) : BondInv s := by
  induction h with
  | genesis inv bond desired free0 _ _ _ _ _ =>
    constructor
    · show (([] : List (CandidateInfo A)).map CandidateInfo.who).Nodup
      simp
    · intro a
      show (0 : Nat) = ((([] : List (CandidateInfo A)).filter
        fun c => decide (c.who = a)).map CandidateInfo.deposit).sum
      simp
  | @step t t' _ hstep ih =>
    cases hstep with
    | registerAs who _s hok =>
      rcases register_as_candidate_cases cfg who t with ⟨u, hcore, heq⟩ | ⟨e, _, heq⟩
      · have h2 : (register_as_candidate cfg who t).2 = u := by rw [heq]
        rw [h2]
        exact registerCore_preserves_bondInv hcore ih
      · rw [heq] at hok
        cases hok
    | registerC who _s hok =>
      rcases register_candidate_cases cfg who t with ⟨u, hcore, heq⟩ | ⟨e, _, heq⟩
      · have h2 : (register_candidate cfg who t).2 = u := by rw [heq]
        rw [h2]
        exact registerCore_preserves_bondInv hcore ih
      · rw [heq] at hok
        cases hok
    | leave who _s hok =>
      rcases leave_intent_cases who t with ⟨u, htr, heq⟩ | ⟨e, _, heq⟩
      · have h2 : (leave_intent who t).2 = u := by rw [heq]
        rw [h2]
        exact try_remove_preserves_bondInv who t u htr ih
      · rw [heq] at hok
        cases hok
    | removeCol who _s hok =>
      rcases remove_collator_cases who t with heq | ⟨u, htr, heq⟩ | ⟨e, _, heq⟩
      · rw [heq] at hok
        cases hok
      · have h2 : (remove_collator who t).2 = u := by rw [heq]
        rw [h2]
        exact try_remove_preserves_bondInv who t u htr ih
      · rw [heq] at hok
        cases hok
    | setInvulnerables new _s =>
      exact ⟨ih.1, ih.2⟩
    | setDesired max _s =>
      exact ⟨ih.1, ih.2⟩
    | setBond bond _s =>
      exact ⟨ih.1, ih.2⟩
    | noteAuthor author _s =>
      have hf := note_author_fields cfg author t
      constructor
      · simp only [candWhos]
        rw [hf.2.1]
        exact ih.1
      · intro a
        rw [hf.2.2.1, hf.2.1]
        exact ih.2 a
    | startSession _s =>
      exact ⟨ih.1, ih.2⟩
    | newSession _s =>
      exact kick_preserves try_remove_preserves_bondInv cfg t ih

theorem try_remove_preserves_notkey (a : A) :
    ∀ who (s s' : State A), try_remove_candidate who s = .ok s' →
      a ∉ s.blocksPerCollator.map Prod.fst →
      a ∉ s'.blocksPerCollator.map Prod.fst := by
  intro who s s' h ha
  obtain ⟨c, hfind, heq⟩ := try_remove_ok_inv h
  subst heq
  intro hmem
  have hmem' : a ∈ (removeKey s.blocksPerCollator who).map Prod.fst := hmem
  exact ha (keys_removeKey_subset _ _ hmem')

/-- Everything `kick_stale_candidates` evicts was a key of the
performance map. -/
theorem kick_evicted_subset (cfg : Config A) (s : State A) :
    ∀ b ∈ (kick_stale_candidates cfg s).1, b ∈ s.blocksPerCollator.map Prod.fst := by
  intro b hb
  unfold kick_stale_candidates at hb
  split at hb
  · simp at hb
  · have h1 := kickLoop_subset _ _ _ _ _ hb
    rw [List.nil_append] at h1
    have hperm : List.Perm (sortedPerf s) s.blocksPerCollator :=
      List.perm_insertionSort _ _
    rw [List.map_take] at h1
    have h2 : b ∈ (sortedPerf s).map Prod.fst := (List.take_sublist _ _).subset h1
    exact (hperm.map Prod.fst).mem_iff.1 h2

/-- An operation other than a `note_author` for `a` never creates a
performance-map entry for `a`. -/
theorem applyOp_preserves_notkey (cfg : Config A) (op : OpC A) (s : State A) (a : A)
    (ha : a ∉ s.blocksPerCollator.map Prod.fst) (hne : op ≠ OpC.noteAuthor a) :
    a ∉ (applyOp cfg op s).blocksPerCollator.map Prod.fst := by
  cases op with
  | registerAs who =>
    rcases register_as_candidate_cases cfg who s with ⟨u, hcore, heq⟩ | ⟨e, _, heq⟩
    · obtain ⟨_, _, _, _, hu⟩ := registerCore_ok_inv hcore
      show a ∉ (register_as_candidate cfg who s).2.blocksPerCollator.map Prod.fst
      rw [heq]
      rw [hu]
      exact ha
    · show a ∉ (register_as_candidate cfg who s).2.blocksPerCollator.map Prod.fst
      rw [heq]
      exact ha
  | registerC who =>
    rcases register_candidate_cases cfg who s with ⟨u, hcore, heq⟩ | ⟨e, _, heq⟩
    · obtain ⟨_, _, _, _, hu⟩ := registerCore_ok_inv hcore
      show a ∉ (register_candidate cfg who s).2.blocksPerCollator.map Prod.fst
      rw [heq, hu]
      exact ha
    · show a ∉ (register_candidate cfg who s).2.blocksPerCollator.map Prod.fst
      rw [heq]
      exact ha
  | leave who =>
    rcases leave_intent_cases who s with ⟨u, htr, heq⟩ | ⟨e, _, heq⟩
    · show a ∉ (leave_intent who s).2.blocksPerCollator.map Prod.fst
      rw [heq]
      exact try_remove_preserves_notkey a who s u htr ha
    · show a ∉ (leave_intent who s).2.blocksPerCollator.map Prod.fst
      rw [heq]
      exact ha
  | removeCol who =>
    rcases remove_collator_cases who s with heq | ⟨u, htr, heq⟩ | ⟨e, _, heq⟩
    · show a ∉ (remove_collator who s).2.blocksPerCollator.map Prod.fst
      rw [heq]
      exact ha
    · show a ∉ (remove_collator who s).2.blocksPerCollator.map Prod.fst
      rw [heq]
      exact try_remove_preserves_notkey a who s u htr ha
    · show a ∉ (remove_collator who s).2.blocksPerCollator.map Prod.fst
      rw [heq]
      exact ha
  | setInv new => exact ha
  | setDesired max => exact ha
  | setBond bond => exact ha
  | noteAuthor who =>
    have hwa : who ≠ a := fun hh => hne (by rw [hh])
    have hf := note_author_fields cfg who s
    show a ∉ (note_author cfg who s).blocksPerCollator.map Prod.fst
    rw [hf.2.2.2.2.2]
    intro hmem
    rcases keys_insertCount _ _ _ _ hmem with h | h
    · exact hwa h.symm
    · exact ha h
  | startSession =>
    intro hmem
    simp [applyOp, start_session, reset_collator_performance] at hmem
  | newSession =>
    exact kick_preserves (try_remove_preserves_notkey a) cfg s ha

/-- Folding a sequence of operations that contains no `note_author` for
`a` never creates a performance-map entry for `a`. -/
theorem foldl_preserves_notkey (cfg : Config A) (a : A) :
    ∀ (ops : List (OpC A)) (s : State A),
      (∀ op ∈ ops, op ≠ OpC.noteAuthor a) →
      a ∉ s.blocksPerCollator.map Prod.fst →
      a ∉ ((ops.foldl (fun t op => applyOp cfg op t)
        s).blocksPerCollator.map Prod.fst) := by
  intro ops
  induction ops with
  | nil => intro s _ ha; exact ha
  | cons op rest ih =>
    intro s hall ha
    rw [List.foldl_cons]
    exact ih _ (fun o ho => hall o (List.mem_cons_of_mem op ho))
      (applyOp_preserves_notkey cfg op s a ha (hall op (List.mem_cons_self op rest)))

/-- Under duplicate-free candidate accounts, a member is found by its
account and is the only entry filtered by it. -/
theorem find?_who_of_mem_nodup {l : List (CandidateInfo A)}
    (hnd : (l.map CandidateInfo.who).Nodup) {c : CandidateInfo A} (hc : c ∈ l) :
    l.find? (fun d => decide (d.who = c.who)) = some c ∧
    l.filter (fun d => decide (d.who = c.who)) = [c] := by
  obtain ⟨d, hfind⟩ :=
    find?_who_isSome_of_mem (List.mem_map_of_mem CandidateInfo.who hc)
  obtain ⟨hdwho, hfilter, _⟩ := find?_who_nodup hnd hfind
  have hcf : c ∈ l.filter (fun d => decide (d.who = c.who)) :=
    List.mem_filter.2 ⟨hc, by simp⟩
  rw [hfilter] at hcf
  simp at hcf
  subst hcf
  exact ⟨hfind, hfilter⟩

end Lemmas

/-! ### Claim theorems -/

section Claims

variable {A : Type} [DecidableEq A]

/-- C2 (code bug): the specification states the rank index as the exact
`floor(P/100 * N) − 1`, but the source computes it with `f64` arithmetic.
At percentile `P = 29` over a snapshot of `N = 100` entries the float
product `0.29 * 100.0` rounds to `28.999999999999996`, so the code's rank
is `27` while the exact formula gives `28`; at the spec's own example
`P = 20, N = 10` (and `U = 50` on count `2`) the two agree. -/
theorem c2_float_rank_deviates_from_spec :
    ordinalRank 29 100 = 27 ∧ rankSpec 29 100 = 28 ∧
    ordinalRank 20 10 = rankSpec 20 10 ∧
    kickThresholdF 50 2 = kickThresholdSpec 50 2 := by
  decide

/-- C7: once the candidate count has reached the desired-candidate
target, both registration dispatchables fail with `TooManyCandidates` and
return the state unchanged (candidate list, balances, counters and events
are those of the input state). -/
theorem c7_register_at_capacity_fails_too_many (cfg : Config A) (s : State A)
    (who : A) (hcap : s.desiredCandidates ≤ s.candidates.length) :
    register_as_candidate cfg who s = (.error .TooManyCandidates, s) ∧
    register_candidate cfg who s = (.error .TooManyCandidates, s) := by
  have hcore : registerCore cfg who s = .error .TooManyCandidates := by
    unfold registerCore
    rw [if_neg (Nat.not_lt.2 hcap)]
  constructor
  · unfold register_as_candidate
    rw [hcore]
  · unfold register_candidate
    rw [hcore]

/-- C7 witness: with desired-candidates 2 and two existing candidates, a
third distinct registration fails with `TooManyCandidates`. -/
theorem c7_register_at_capacity_fails_too_many_witness :
    sC7.desiredCandidates ≤ sC7.candidates.length ∧
    (register_as_candidate cfgE 3 sC7 = (.error .TooManyCandidates, sC7) ∧
      register_candidate cfgE 3 sC7 = (.error .TooManyCandidates, sC7)) :=
  ⟨by decide, c7_register_at_capacity_fails_too_many cfgE sC7 3 (by decide)⟩

/-- C8: removing an account that is not a candidate fails with
`NotCandidate` via both the internal removal path and `leave_intent`, and
returns the state unchanged (so no event is emitted and neither balances
nor counters move). -/
theorem c8_remove_absent_fails_not_candidate (s : State A) (who : A)
    (hmem : who ∉ candWhos s) :
    try_remove_candidate who s = .error .NotCandidate ∧
    leave_intent who s = (.error .NotCandidate, s) := by
  have h := try_remove_error_of_not_mem hmem
  refine ⟨h, ?_⟩
  unfold leave_intent
  rw [h]

/-- C8 witness: account 9 is not a candidate of `sC6`. -/
theorem c8_remove_absent_fails_not_candidate_witness :
    (9 : Nat) ∉ candWhos sC6 ∧
    (try_remove_candidate 9 sC6 = .error .NotCandidate ∧
      leave_intent 9 sC6 = (.error .NotCandidate, sC6)) :=
  ⟨by decide, c8_remove_absent_fails_not_candidate sC6 9 (by decide)⟩

/-- C9: `assemble_collators` returns exactly the invulnerables (in their
stored order) concatenated with the given candidate accounts (in the
given order), with no deduplication; e.g. invulnerables `[1, 2]` and
candidates `[3, 4]` yield `[1, 2, 3, 4]`. -/
theorem c9_assemble_collators_is_concatenation :
    (∀ (B : Type) (s : State B) (cands : List B),
      assemble_collators cands s = s.invulnerables ++ cands) ∧
    assemble_collators [3, 4] sAB = [1, 2, 3, 4] := by
  constructor
  · intro B s cands
    rfl
  · decide

/-- C4: `note_author` is total; it increments the author's per-session
counter by exactly one (saturating at the `u32` maximum), pays the author
`floor((pot_balance − existential_minimum) / 2)` (the `Nat` subtraction
saturates, so the reward is `0` whenever the pot is below the minimum and
the free balance is then unchanged), and the reward formula never
fails. -/
theorem c4_note_author_reward_and_counter (cfg : Config A) (s : State A)
    (author : A) (hne : author ≠ cfg.potId) :
    lookupCount (note_author cfg author s).blocksPerCollator author =
      min (lookupCount s.blocksPerCollator author + 1) (2 ^ 32 - 1) ∧
    (note_author cfg author s).free author =
      s.free author + (s.free cfg.potId - cfg.minimumBalance) / 2 ∧
    (s.free cfg.potId < cfg.minimumBalance →
      (note_author cfg author s).free author = s.free author) := by
  refine ⟨?_, note_author_free s hne, ?_⟩
  · rw [(note_author_fields cfg author s).2.2.2.2.2]
    exact lookupCount_insertCount_self _ _ _
  · intro hlt
    rw [note_author_free s hne, Nat.sub_eq_zero_of_le hlt.le]
    simp

/-- C4 witness: pot balance 1000, existential minimum 10, author 7 with
balance 600 and 7 authored blocks so far: the reward is
`floor(990 / 2) = 495` and the counter moves to 8. -/
theorem c4_note_author_reward_and_counter_witness :
    (7 : Nat) ≠ cfgE.potId ∧
    (lookupCount (note_author cfgE 7 sC4).blocksPerCollator 7 =
        min (lookupCount sC4.blocksPerCollator 7 + 1) (2 ^ 32 - 1) ∧
      (note_author cfgE 7 sC4).free 7 =
        sC4.free 7 + (sC4.free cfgE.potId - cfgE.minimumBalance) / 2 ∧
      (sC4.free cfgE.potId < cfgE.minimumBalance →
        (note_author cfgE 7 sC4).free 7 = sC4.free 7)) ∧
    (sC4.free cfgE.potId - cfgE.minimumBalance) / 2 = 495 :=
  ⟨by decide, c4_note_author_reward_and_counter cfgE sC4 7 (by decide), by decide⟩

/-- C6 counterexample: with desired-candidates 1 and account 5 already
the (only) candidate, registering 5 again fails with `TooManyCandidates`,
not `AlreadyCandidate` — the capacity check precedes the duplicate
check. -/
theorem c6_counterexample :
    5 ∈ candWhos sC6 ∧
    (register_as_candidate cfgE 5 sC6).1 = .error .TooManyCandidates ∧
    PalletError.TooManyCandidates ≠ PalletError.AlreadyCandidate :=
  ⟨by decide, rfl, by decide⟩

/-- C6 (amended): registering an account already in the candidate list
fails with `AlreadyCandidate` and leaves the state unchanged, provided
the checks that the source runs first pass: the candidate count is
strictly below the desired target, the account is not invulnerable, and
its validator identity resolves and is registered. -/
theorem c6_duplicate_registration_fails_already_candidate (cfg : Config A)
    (s : State A) (who k : A)
    (hmem : who ∈ candWhos s)
    (hcap : s.candidates.length < s.desiredCandidates)
    (hninv : who ∉ s.invulnerables)
    (hkey : cfg.validatorIdOf who = some k)
    (hreg : cfg.isRegistered k = true) :
    register_as_candidate cfg who s = (.error .AlreadyCandidate, s) ∧
    register_candidate cfg who s = (.error .AlreadyCandidate, s) := by
  have hany : (s.candidates.any fun c => decide (c.who = who)) = true := by
    rw [List.any_eq_true]
    rcases List.mem_map.1 hmem with ⟨c, hcm, hcw⟩
    exact ⟨c, hcm, by simp [hcw]⟩
  have hcore : registerCore cfg who s = .error .AlreadyCandidate := by
    unfold registerCore
    rw [if_pos hcap, if_neg hninv, hkey]
    dsimp only
    rw [hreg]
    rw [if_pos rfl, if_pos hany]
  constructor
  · unfold register_as_candidate
    rw [hcore]
  · unfold register_candidate
    rw [hcore]

/-- C6 witness: account 5 is a candidate of `sC6b` (capacity 2, one
candidate), so re-registering it fails with `AlreadyCandidate`. -/
theorem c6_duplicate_registration_fails_already_candidate_witness :
    (5 ∈ candWhos sC6b ∧ sC6b.candidates.length < sC6b.desiredCandidates ∧
      (5 : Nat) ∉ sC6b.invulnerables ∧ cfgE.validatorIdOf 5 = some 5 ∧
      cfgE.isRegistered 5 = true) ∧
    (register_as_candidate cfgE 5 sC6b = (.error .AlreadyCandidate, sC6b) ∧
      register_candidate cfgE 5 sC6b = (.error .AlreadyCandidate, sC6b)) :=
  ⟨⟨by decide, by decide, by decide, rfl, rfl⟩,
    c6_duplicate_registration_fails_already_candidate cfgE sC6b 5 5 (by decide)
      (by decide) (by decide) rfl rfl⟩

/-- C1 counterexample: `set_invulnerables` installs any list without
checking the candidate registry, so after registering account 7 as a
candidate and then setting the invulnerables to `[7]`, the reachable
state `c1s2` has account 7 in both lists — the disjointness invariant
fails over the full operation set. -/
theorem c1_counterexample :
    Reachable cfgE c1s2 ∧ 7 ∈ c1s2.invulnerables ∧ 7 ∈ candWhos c1s2 := by
  refine ⟨?_, by decide, by decide⟩
  exact Reachable.step
    (Reachable.step
      (Reachable.genesis [] 0 5 (fun _ => 100) (by simp) (by decide) (by decide)
        (by decide) (by decide))
      (Step.registerAs 7 g1 rfl))
    (Step.setInvulnerables [7] c1s1)

/-- C1 (amended): no account is simultaneously invulnerable and a
candidate in any state reachable when every `set_invulnerables` call
supplies a list disjoint from the then-current candidates (registration
itself always rejects invulnerables, and every other operation preserves
disjointness). -/
theorem c1_invulnerables_candidates_disjoint (cfg : Config A) (s : State A)
    (h : ReachableD cfg s) :
    ∀ a, ¬(a ∈ s.invulnerables ∧ a ∈ candWhos s) :=
  fun a ha => reachableD_DisjointIC h a ha.1 ha.2

/-- C1 witness: after a registration from genesis, account 7 is not in
both lists. -/
theorem c1_invulnerables_candidates_disjoint_witness :
    ¬((7 : Nat) ∈ c1s1.invulnerables ∧ 7 ∈ candWhos c1s1) :=
  c1_invulnerables_candidates_disjoint cfgE c1s1
    (ReachableD.step
      (ReachableD.genesis [] 0 5 (fun _ => 100) (by simp) (by decide) (by decide)
        (by decide) (by decide))
      (StepD.registerAs 7 g1 rfl)) 7

/-- C3 counterexample: in `sX` the tracked account 7 sits strictly below
the rank index with a count at or below the threshold and is not
invulnerable, yet `kick_stale_candidates` evicts nobody, because 7 is not
a registered candidate and the removal fails defensively — the claim's
"exactly" does not hold as stated. -/
theorem c3_counterexample :
    (kick_stale_candidates cfgX sX).1 = [] ∧
    7 ∈ ((sortedPerf sX).take (kickRank cfgX sX)).map Prod.fst ∧
    lookupCount sX.blocksPerCollator 7 ≤ kickThresholdOf cfgX sX ∧
    (7 : Nat) ∉ sX.invulnerables := by
  decide

/-- C3 (amended): an empty snapshot yields no evictions and no error;
over a snapshot with duplicate-free accounts the evicted accounts are
exactly those at a sorted-order index strictly before the computed rank
index whose count is at or below the computed kick threshold, which are
not invulnerable, and which are registered candidates (removal of
non-candidates fails defensively and is skipped); and for counts
`[1,…,10]` with percentile 20 and underperformance 50 exactly the account
with count 1 is evicted. -/
theorem c3_kick_stale_candidates_characterization (cfg : Config A) :
    (∀ s : State A, s.blocksPerCollator = [] →
      kick_stale_candidates cfg s = ([], s)) ∧
    (∀ s : State A, (s.blocksPerCollator.map Prod.fst).Nodup →
      (kick_stale_candidates cfg s).1 =
        (((sortedPerf s).take (kickRank cfg s)).map Prod.fst).filter
          fun a => decide (lookupCount s.blocksPerCollator a ≤ kickThresholdOf cfg s ∧
            a ∉ s.invulnerables ∧ a ∈ candWhos s)) ∧
    (kick_stale_candidates cfgE sE).1 = [1] := by
  refine ⟨?_, fun s => kick_char cfg s, by decide⟩
  intro s hb
  unfold kick_stale_candidates
  rw [hb]
  rfl

/-- C3 witness: the characterization applied to the ten-candidate state
`sE`. -/
theorem c3_kick_stale_candidates_characterization_witness :
    (sE.blocksPerCollator.map Prod.fst).Nodup ∧
    (kick_stale_candidates cfgE sE).1 =
      (((sortedPerf sE).take (kickRank cfgE sE)).map Prod.fst).filter
        fun a => decide (lookupCount sE.blocksPerCollator a ≤ kickThresholdOf cfgE sE ∧
          a ∉ sE.invulnerables ∧ a ∈ candWhos sE) :=
  ⟨by decide, (c3_kick_stale_candidates_characterization cfgE).2.1 sE (by decide)⟩

/-- C5: in every reachable state the candidate accounts are
duplicate-free, each candidate's reserved balance equals its recorded
deposit (the bond reserved at its registration), the summed reserved
bonds equal the summed recorded deposits, and removing any candidate via
`leave_intent` succeeds, zeroes its reserved balance, and returns exactly
the recorded deposit to its free balance. -/
theorem c5_bond_conservation (cfg : Config A) (s : State A)
    (h : Reachable cfg s) :
    (candWhos s).Nodup ∧
    (∀ c ∈ s.candidates, s.reserved c.who = c.deposit) ∧
    ((s.candidates.map fun c => s.reserved c.who).sum =
      (s.candidates.map CandidateInfo.deposit).sum) ∧
    (∀ c ∈ s.candidates, (leave_intent c.who s).1 = .ok () ∧
      (leave_intent c.who s).2.reserved c.who = 0 ∧
      (leave_intent c.who s).2.free c.who = s.free c.who + c.deposit) := by
  obtain ⟨hnd, hres⟩ := reachable_BondInv h
  have hpoint : ∀ c ∈ s.candidates, s.reserved c.who = c.deposit := by
    intro c hc
    obtain ⟨hfind, hfilter⟩ := find?_who_of_mem_nodup hnd hc
    rw [hres c.who, hfilter]
    simp
  refine ⟨hnd, hpoint, ?_, ?_⟩
  · rw [List.map_congr_left fun c hc => hpoint c hc]
  · intro c hc
    obtain ⟨hfind, _⟩ := find?_who_of_mem_nodup hnd hc
    obtain ⟨s', hs'⟩ :=
      try_remove_ok_of_mem (List.mem_map_of_mem CandidateInfo.who hc)
    obtain ⟨d, hfind2, hs'eq⟩ := try_remove_ok_inv hs'
    have hd : d = c := by
      rw [hfind] at hfind2
      injection hfind2 with hh
      exact hh.symm
    subst hd
    have hleq : leave_intent d.who s = (.ok (), s') := by
      unfold leave_intent
      rw [hs']
    rw [hleq]
    refine ⟨rfl, ?_, ?_⟩
    · rw [hs'eq]
      show updFn s.reserved d.who
        (s.reserved d.who - min d.deposit (s.reserved d.who)) d.who = 0
      rw [hpoint d hc]
      simp [updFn]
    · rw [hs'eq]
      show updFn s.free d.who
        (s.free d.who + min d.deposit (s.reserved d.who)) d.who =
          s.free d.who + d.deposit
      rw [hpoint d hc]
      simp [updFn]

/-- C5 witness: after registering account 7 from genesis with bond 10,
its reserved balance is exactly 10. -/
theorem c5_bond_conservation_witness :
    Reachable cfgE s5 ∧ s5.reserved 7 = 10 := by
  have hre : Reachable cfgE s5 :=
    Reachable.step
      (Reachable.genesis [] 10 5 (fun _ => 100) (by simp) (by decide) (by decide)
        (by decide) (by decide))
      (Step.registerAs 7 g2 rfl)
  exact ⟨hre, (c5_bond_conservation cfgE s5 hre).2.1 ⟨7, 10⟩ (by decide)⟩

/-- C10: every account evicted by `kick_stale_candidates` is a key of the
per-session performance map; `start_session` clears the map; and after a
session start, an account for which no `note_author` occurs (it authored
zero blocks) has no map entry and is never evicted at the next
`kick_stale_candidates`, whatever other operations run in between. -/
theorem c10_untracked_accounts_never_evicted (cfg : Config A) :
    (∀ s : State A, ∀ b ∈ (kick_stale_candidates cfg s).1,
      b ∈ s.blocksPerCollator.map Prod.fst) ∧
    (∀ s : State A, (start_session s).blocksPerCollator = []) ∧
    (∀ (s : State A) (ops : List (OpC A)) (a : A),
      (∀ op ∈ ops, op ≠ OpC.noteAuthor a) →
      a ∉ (kick_stale_candidates cfg
        (ops.foldl (fun t op => applyOp cfg op t) (start_session s))).1) := by
  refine ⟨kick_evicted_subset cfg, fun s => rfl, ?_⟩
  intro s ops a hall hmem
  exact foldl_preserves_notkey cfg a ops (start_session s) hall
    (by simp [start_session, reset_collator_performance])
    (kick_evicted_subset cfg _ a hmem)

/-- C10 witness: starting a session from `sE` and then noting author 5,
account 7 (zero blocks this session) is not evicted. -/
theorem c10_untracked_accounts_never_evicted_witness :
    (∀ op ∈ [OpC.noteAuthor (5 : Nat)], op ≠ OpC.noteAuthor 7) ∧
    (7 : Nat) ∉ (kick_stale_candidates cfgE
      ([OpC.noteAuthor 5].foldl (fun t op => applyOp cfgE op t)
        (start_session sE))).1 :=
  ⟨by decide,
    (c10_untracked_accounts_never_evicted cfgE).2.2 sE [OpC.noteAuthor 5] 7
      (by decide)⟩

end Claims
